import Mathlib

/-!
# simple_cli: a shallow embedding of `src/main.cpp`

The shell reads a line, splits it into a command word and a remainder, and
dispatches to one of five builtin handlers or to an external program.

Modelling choices.

* A `std::string_view` / `std::string` is a `List Char` (`Str`).
* `std::size_t` values are natural numbers below `2 ^ 64`; `npos` is
  `2 ^ 64 - 1`, and the two places where the source does arithmetic on a
  position (`find_first_of(...) - 1`, `find_last_not_of(...) + 1`) wrap
  modulo `2 ^ 64`.
* `substr(pos, count)` raises `std::out_of_range` when `pos > size()`; the
  model returns `none` there, and the caller turns it into `Outcome.raise`.
* The process environment (the two environment variables, the file system,
  the working directory and the fate of a spawned child) is a `World` value
  threaded through the handlers.
* `std::filesystem::exists(p) && std::filesystem::is_regular_file(p)` uses the
  throwing overloads: a status query that fails for another reason than a
  missing file (a directory that may not be searched, a name that is too
  long) throws `std::filesystem::filesystem_error`, which nothing catches.
  The query of the model answers `none` there, and the search ends in
  `Outcome.fsraise`.
-/

namespace SimpleCli

/-- A string or string view of the program: its sequence of characters. -/
abbrev Str := List Char

/-- The value `std::string_view::npos`, the largest `std::size_t`. -/
def npos : Nat := 2 ^ 64 - 1

/-- The character set `" \t\n"` every trimming call of the source passes. -/
def ws : Str := [' ', '\t', '\n']

/-- Scan for the first character satisfying `p`; `i` is the index of the head
of the list in the whole view. No match gives `npos`. -/
def scan (p : Char → Bool) : Str → Nat → Nat
  | [], _ => npos
  | c :: cs, i => if p c then i else scan p cs (i + 1)

/-- The call `s.find_first_of(chars, pos)`. -/
def find_first_of (s : Str) (chars : Str) (pos : Nat) : Nat :=
  scan (fun c => chars.contains c) (s.drop pos) pos

/-- The call `s.find_first_not_of(chars, pos)`. -/
def find_first_not_of (s : Str) (chars : Str) (pos : Nat) : Nat :=
  scan (fun c => !chars.contains c) (s.drop pos) pos

/-- Backward scan over a reversed view: `n` is the number of characters not
yet looked at, so the head of the reversed list sits at index `n - 1`. -/
def scanBack (p : Char → Bool) : Str → Nat → Nat
  | [], _ => npos
  | c :: cs, n => if p c then n - 1 else scanBack p cs (n - 1)

/-- The call `s.find_last_not_of(chars)`. -/
def find_last_not_of (s : Str) (chars : Str) : Nat :=
  scanBack (fun c => !chars.contains c) s.reverse s.length

/-- The call `s.find(c)` on a single character. -/
def find (s : Str) (c : Char) : Nat :=
  scan (fun d => d == c) s 0

/-- The call `s.substr(pos, count)`: `none` stands for `std::out_of_range`,
raised exactly when `pos > s.size()`. The view returned has
`min count (size - pos)` characters. -/
def substr (s : Str) (pos count : Nat) : Option Str :=
  if pos > s.length then none else some ((s.drop pos).take count)

/-- Unsigned subtraction of one on `std::size_t`. -/
def decr (n : Nat) : Nat := (n + 2 ^ 64 - 1) % 2 ^ 64

/-- Unsigned addition of one on `std::size_t`. -/
def incr (n : Nat) : Nat := (n + 1) % 2 ^ 64

/-- How a call of a handler, or of the dispatcher, ends. -/
inductive Outcome where
  /-- normal return with the output text -/
  | ret (out : Str)
  /-- the process ends in `std::exit` with this `int` argument -/
  | exit (code : Int)
  /-- a `std::out_of_range` exception leaves the function -/
  | raise
  /-- the loop of `LoadArgv` did not finish within its iteration bound -/
  | hang
  /-- a `std::filesystem::filesystem_error` leaves the function -/
  | fsraise
  deriving DecidableEq, Repr

/-- The process environment the program talks to.

* `pathEnv`, `homeEnv`: what `std::getenv` gives for `PATH` and `HOME`.
* `cwd`: the working directory; `cwdReadable` says whether `getcwd` succeeds
  on it.
* `isRegularFile cwd p`: `std::filesystem::exists(p) && is_regular_file(p)`
  evaluated with that working directory; `none` when one of the two calls
  throws `filesystem_error`.
* `resolveDir cwd p`: the directory `chdir(p)` enters, `none` when it fails.
* `childExits argv`: whether the child spawned with this argument vector is
  reported by `WIFEXITED`. -/
structure World where
  pathEnv : Option Str
  homeEnv : Option Str
  cwd : Str
  cwdReadable : Str → Bool
  isRegularFile : Str → Str → Option Bool
  resolveDir : Str → Str → Option Str
  childExits : List (Option Str) → Bool

/-! ## `CommandExit` -/

/-- The characters `isspace` accepts in the C locale; `strtoull` skips them. -/
def isspace (c : Char) : Bool :=
  c == ' ' || c == '\t' || c == '\n' || c == '\x0b' || c == '\x0c' || c == '\r'

/-- Value of a run of decimal digits, most significant first, on top of `acc`. -/
def digitsValue : Str → Nat → Nat
  | [], acc => acc
  | c :: cs, acc => digitsValue cs (10 * acc + (c.toNat - '0'.toNat))

/-- The sign and digit part of `strtoull`, after the leading space is gone:
`none` when no digit can be converted (`std::invalid_argument`) or the
magnitude exceeds `ULLONG_MAX` (`std::out_of_range`); a minus sign negates
the magnitude modulo `2 ^ 64`. -/
def stoullSigned (s : Str) : Option Nat :=
  let neg := s.head? == some '-'
  let body := if s.head? == some '-' || s.head? == some '+' then s.drop 1 else s
  let ds := body.takeWhile Char.isDigit
  if ds.isEmpty then none
  else
    let v := digitsValue ds 0
    if v ≥ 2 ^ 64 then none
    else some (if neg then (2 ^ 64 - v) % 2 ^ 64 else v)

/-- The library call `std::stoull(std::string{s})` in base ten; `none` when
it throws. -/
def stoull (s : Str) : Option Nat :=
  stoullSigned (s.dropWhile isspace)

/-- Conversion of a `std::size_t` to the `int` parameter of `std::exit`. -/
def toInt (v : Nat) : Int :=
  if v % 2 ^ 32 < 2 ^ 31 then (v % 2 ^ 32 : Nat) else ((v % 2 ^ 32 : Nat) : Int) - 2 ^ 32

/-- The handler `CommandExit::Execute`. Both `substr` calls sit before the
`try` block, so an exception of theirs leaves the handler. -/
def CommandExit.Execute (w : World) (input : Str) : Outcome × World :=
  match substr input (find_first_not_of input ws 0) npos with
  | none => (.raise, w)
  | some input1 =>
    match substr input1 0 (find_first_of input1 ws 0) with
    | none => (.raise, w)
    | some input2 =>
      let value : Nat :=
        if !input2.isEmpty then
          match stoull input2 with
          | some v => v
          | none => 1
        else 0
      (.exit (toInt value), w)

/-! ## `CommandEcho` -/

/-- The handler `CommandEcho::Execute`. -/
def CommandEcho.Execute (w : World) (input : Str) : Outcome × World :=
  match substr input (find_first_not_of input ws 0) npos with
  | none => (.raise, w)
  | some input1 =>
    if !input1.isEmpty && input1.head? == some '\'' then
      match substr input1 1 (decr (find_first_of input1 ['\''] 1)) with
      | none => (.raise, w)
      | some input2 => (.ret input2, w)
    else (.ret input1, w)

/-! ## `CommandType` -/

/-- The five handler classes. -/
inductive Builtin where
  | Exit | Echo | Type | Pwd | Cd
  deriving DecidableEq, Repr

/-- The registry as the constructor of `Processor` fills it. -/
def commandMap : List (Str × Builtin) :=
  [ ("exit".toList, .Exit), ("echo".toList, .Echo), ("type".toList, .Type),
    ("pwd".toList, .Pwd), ("cd".toList, .Cd) ]

/-- The call `_commandMap.find(key)`; `none` is `end()`. -/
def mapFind (m : List (Str × Builtin)) (key : Str) : Option Builtin :=
  m.lookup key

/-- Whether a path has a filename component: it is non-empty and does not end
in the separator. -/
def hasFilename (p : Str) : Bool :=
  match p.getLast? with
  | none => false
  | some c => c != '/'

/-- The expression `std::filesystem::path(dir) / name`, as a string: an
absolute `name` replaces `dir`; otherwise a separator is added when `dir` has
a filename, and `name` is appended. -/
def pathJoin (dir name : Str) : Str :=
  if name.head? == some '/' then name
  else if hasFilename dir then dir ++ ['/'] ++ name
  else dir ++ name

/-- How a walk over a list of directories ends. -/
inductive Search where
  /-- the joined path of the first directory that holds the file -/
  | found (filePath : Str)
  /-- no directory holds the file -/
  | notFound
  /-- a status query threw `filesystem_error` -/
  | error
  deriving DecidableEq, Repr

/-- The body both path loops share: join the directory and the name, query
the file system, stop at the first regular file. A query that throws ends the
walk at once. -/
def searchPath (w : World) (name : Str) : List Str → Search
  | [] => .notFound
  | directory :: rest =>
    match w.isRegularFile w.cwd (pathJoin directory name) with
    | none => .error
    | some true => .found (pathJoin directory name)
    | some false => searchPath w name rest

/-- The directories the loop `while (std::getline(pathStream, directory, ':'))`
yields: the pieces between colons, except that a stream that is already at
its end yields nothing, so an empty last piece is not produced. -/
def getlineDirs : Str → List Str
  | [] => []
  | c :: cs =>
    if c == ':' then [] :: getlineDirs cs
    else
      match getlineDirs cs with
      | [] => [[c]]
      | d :: ds => (c :: d) :: ds

/-- The handler `CommandType<Map>::Execute`; `m` is the registry it refers to. -/
def CommandType.Execute (m : List (Str × Builtin)) (w : World) (input : Str) :
    Outcome × World :=
  match substr input (find_first_not_of input ws 0) npos with
  | none => (.raise, w)
  | some input1 =>
    let arg : Option Str :=
      if !input1.isEmpty && input1.head? == some '\'' then
        substr input1 1 (decr (find_first_of input1 ['\''] 1))
      else substr input1 0 (find_first_of input1 ws 0)
    match arg with
    | none => (.raise, w)
    | some name =>
      match mapFind m name with
      | some _ => (.ret (name ++ " is a shell builtin".toList), w)
      | none =>
        match w.pathEnv with
        | none => (.ret (name ++ ": not found".toList), w)
        | some pathEnv =>
          if name.isEmpty then (.ret (name ++ ": not found".toList), w)
          else
            match searchPath w name (getlineDirs pathEnv) with
            | .found filePath => (.ret (name ++ " is ".toList ++ filePath), w)
            | .error => (.fsraise, w)
            | .notFound => (.ret (name ++ ": not found".toList), w)

/-! ## `CommandPwd` and `CommandCd` -/

/-- The handler `CommandPwd::Execute`. -/
def CommandPwd.Execute (w : World) (_input : Str) : Outcome × World :=
  if w.cwdReadable w.cwd then (.ret w.cwd, w)
  else (.ret "Error: Unable to retrieve current working directory.".toList, w)

/-- The call `chdir(path)`: the new world on success. -/
def chdir (w : World) (path : Str) : Option World :=
  match w.resolveDir w.cwd path with
  | some d => some { w with cwd := d }
  | none => none

/-- The handler `CommandCd::Execute`. -/
def CommandCd.Execute (w : World) (input : Str) : Outcome × World :=
  match substr input (find_first_not_of input ws 0) npos with
  | none => (.raise, w)
  | some input1 =>
    match substr input1 0 (incr (find_last_not_of input1 ws)) with
    | none => (.raise, w)
    | some input2 =>
      if input2.isEmpty then
        match w.homeEnv with
        | none => (.ret "Error: Unable to change to home directory.".toList, w)
        | some homeDir =>
          match chdir w homeDir with
          | some w1 => (.ret [], w1)
          | none => (.ret "Error: Unable to change to home directory.".toList, w)
      else
        let expanded : Option Str :=
          if input2.head? == some '~' then
            match w.homeEnv with
            | none => none
            | some homeDir => some (homeDir ++ input2.drop 1)
          else some input2
        match expanded with
        | none => (.ret "Error: HOME environment variable is not set.".toList, w)
        | some path =>
          match chdir w path with
          | some w1 => (.ret [], w1)
          | none => (.ret ("cd: ".toList ++ path ++ ": No such file or directory".toList), w)

/-! ## External programs -/

/-- Result of filling the argument vector. -/
inductive ArgvResult where
  | ok (argv : List (Option Str))
  | raise
  | hang
  deriving DecidableEq, Repr

/-- The loop of `ArgvHolder::LoadArgv`, bounded by `fuel` iterations: `argv`
is the vector so far. A `none` entry is the null pointer. -/
def LoadArgvLoop : Nat → Str → List (Option Str) → ArgvResult
  | 0, _, _ => .hang
  | fuel + 1, args, argv =>
    let pos := find args ' '
    if pos ≠ npos then
      match substr args 0 pos with
      | none => .raise
      | some word =>
        match substr args (find_first_not_of args ws pos) npos with
        | none => .raise
        | some args1 => LoadArgvLoop fuel args1 (argv ++ [some word])
    else .ok (argv ++ [some args] ++ [none])

/-- The method `ArgvHolder::LoadArgv` applied to a holder whose vector is
`argv`. -/
def LoadArgv (args : Str) (argv : List (Option Str)) : ArgvResult :=
  LoadArgvLoop (args.length + 1) args argv

/-- The method `ArgvHolder::PushWord`. -/
def PushWord (iStr : Str) (argv : List (Option Str)) : List (Option Str) :=
  argv ++ [some iStr]

/-- The method `Processor::ExecuteProgram`. -/
def ExecuteProgram (w : World) (executable : Str) (args : Str) : Outcome × World :=
  match LoadArgv args (PushWord executable []) with
  | .raise => (.raise, w)
  | .hang => (.hang, w)
  | .ok argv =>
    if w.childExits argv then (.ret [], w)
    else (.ret "Error: Failed to execute external command!".toList, w)

/-- The directory list of `ExecuteExternal`: cut at every colon, the rest
after the last colon being the last entry. -/
def splitColon : Str → List Str
  | [] => [[]]
  | c :: cs =>
    if c == ':' then [] :: splitColon cs
    else
      match splitColon cs with
      | [] => [[c]]
      | d :: ds => (c :: d) :: ds

/-- The method `Processor::ExecuteExternal`. -/
def ExecuteExternal (w : World) (command : Str) (input : Str) : Outcome × World :=
  let trimmed : Option Str :=
    if !input.isEmpty then substr input (find_first_not_of input ws 0) npos
    else some input
  match trimmed with
  | none => (.raise, w)
  | some input1 =>
    match w.pathEnv with
    | none => (.ret (command ++ ": command not found".toList), w)
    | some pathEnv =>
      match searchPath w command (splitColon pathEnv) with
      | .found executable => ExecuteProgram w executable input1
      | .error => (.fsraise, w)
      | .notFound => (.ret (command ++ ": command not found".toList), w)

/-! ## The dispatcher -/

/-- What the first lines of `Processor::Execute` make of a line. -/
inductive Parsed where
  /-- `wordStart == npos`: the early return -/
  | noCommand
  /-- one of the two `substr` calls raised -/
  | raise
  /-- the `command` view looked up in the registry, and the view `input`
  handed on -/
  | token (command : Str) (remainder : Str)
  deriving DecidableEq, Repr

/-- Lines 176 to 181 of `Processor::Execute`. -/
def parseLine (input : Str) : Parsed :=
  let wordStart := find_first_not_of input ws 0
  if wordStart = npos then .noCommand
  else
    let wordEnd := find_first_of input ws wordStart
    match substr input wordStart wordEnd with
    | none => .raise
    | some command =>
      match substr input (if wordEnd = npos then command.length else wordEnd) npos with
      | none => .raise
      | some remainder => .token command remainder

/-- The virtual call `it->second->Execute(input)`. -/
def Builtin.Execute (b : Builtin) (w : World) (input : Str) : Outcome × World :=
  match b with
  | .Exit => CommandExit.Execute w input
  | .Echo => CommandEcho.Execute w input
  | .Type => CommandType.Execute commandMap w input
  | .Pwd => CommandPwd.Execute w input
  | .Cd => CommandCd.Execute w input

/-- The method `Processor::Execute`. -/
def Execute (w : World) (input : Str) : Outcome × World :=
  match parseLine input with
  | .noCommand => (.ret [], w)
  | .raise => (.raise, w)
  | .token command remainder =>
    match mapFind commandMap command with
    | none => ExecuteExternal w command remainder
    | some handler => handler.Execute w remainder

/-- A world with no environment variable set, no file and no directory. -/
def bareWorld : World where
  pathEnv := none
  homeEnv := none
  cwd := ['/']
  cwdReadable := fun _ => true
  isRegularFile := fun _ _ => some false
  resolveDir := fun _ _ => none
  childExits := fun _ => true

/-- Lines 77 to 99 of `CommandType<Map>::Execute`: what the handler reports
once the argument `name` has been extracted. -/
def typeReport (m : List (Str × Builtin)) (w : World) (name : Str) : Outcome × World :=
  match mapFind m name with
  | some _ => (.ret (name ++ " is a shell builtin".toList), w)
  | none =>
    match w.pathEnv with
    | none => (.ret (name ++ ": not found".toList), w)
    | some pathEnv =>
      if name.isEmpty then (.ret (name ++ ": not found".toList), w)
      else
        match searchPath w name (getlineDirs pathEnv) with
        | .found filePath => (.ret (name ++ " is ".toList ++ filePath), w)
        | .error => (.fsraise, w)
        | .notFound => (.ret (name ++ ": not found".toList), w)

/-- A world like `bareWorld` with `HOME` set to `/home/u`, the only directory
that can be entered. -/
def homeWorld : World :=
  { bareWorld with
    homeEnv := some "/home/u".toList
    resolveDir := fun _ p => if p == "/home/u".toList then some p else none }

/-- A world whose `PATH` is `/opt:/usr/bin:/bin`, with a regular file `ls` in
`/usr/bin` and in `/bin`. -/
def lsWorld : World :=
  { bareWorld with
    pathEnv := some "/opt:/usr/bin:/bin".toList
    isRegularFile := fun _ p => some (p == "/usr/bin/ls".toList || p == "/bin/ls".toList) }

/-- A world whose `PATH` is `/usr/bin:` and whose only regular file is `prog`
in the working directory. -/
def dotWorld : World :=
  { bareWorld with
    pathEnv := some "/usr/bin:".toList
    isRegularFile := fun _ p => some (p == "prog".toList) }

theorem scan_none (p : Char → Bool) (l : Str) (i : Nat)
    (h : ∀ x ∈ l, p x = false) : scan p l i = npos := by
  induction l generalizing i with
  | nil => rfl
  | cons c cs ih =>
    have hc : p c = false := h c (List.mem_cons_self c cs)
    have hcs : ∀ x ∈ cs, p x = false := fun x hx => h x (List.mem_cons_of_mem c hx)
    simp [scan, hc, ih (i + 1) hcs]

theorem scan_hit (p : Char → Bool) (l1 : Str) (c : Char) (l2 : Str) (i : Nat)
    (h : ∀ x ∈ l1, p x = false) (hc : p c = true) :
    scan p (l1 ++ c :: l2) i = i + l1.length := by
  induction l1 generalizing i with
  | nil => simp [scan, hc]
  | cons d ds ih =>
    have hd : p d = false := h d (List.mem_cons_self d ds)
    have hds : ∀ x ∈ ds, p x = false := fun x hx => h x (List.mem_cons_of_mem d hx)
    simp [scan, hd, ih (i + 1) hds]
    omega

theorem contains_ws_iff (c : Char) : ws.contains c = true ↔ c ∈ ws := by
  simp

theorem npos_eq : npos = 18446744073709551615 := by decide

theorem ws_contains_false (c : Char) (h : c ∉ ws) : ws.contains c = false := by
  have := contains_ws_iff c
  cases hb : ws.contains c with
  | false => rfl
  | true => exact absurd (this.mp hb) h

theorem substr_zero_append (a b : Str) : substr (a ++ b) 0 a.length = some a := by
  simp [substr]

theorem substr_drop_all (a b : Str) (h : b.length ≤ npos) :
    substr (a ++ b) a.length npos = some b := by
  simp [substr, List.take_of_length_le h]

/-- Skipping leading characters of the set `" \t\n"`: the first `substr`
call of every handler. -/
theorem trim_lead (pre : Str) (c : Char) (rest : Str)
    (hpre : ∀ x ∈ pre, x ∈ ws) (hc : c ∉ ws)
    (hlen : (pre ++ c :: rest).length < npos) :
    find_first_not_of (pre ++ c :: rest) ws 0 = pre.length ∧
    substr (pre ++ c :: rest) (find_first_not_of (pre ++ c :: rest) ws 0) npos =
      some (c :: rest) := by
  have hfind : find_first_not_of (pre ++ c :: rest) ws 0 = pre.length := by
    unfold find_first_not_of
    rw [List.drop_zero, scan_hit]
    · omega
    · intro x hx
      simp [hpre x hx]
    · simp [hc]
  refine ⟨hfind, ?_⟩
  rw [hfind]
  apply substr_drop_all
  simp at hlen ⊢
  omega

/-- The tokenizer on a line without leading whitespace: the command is the
first word and the remainder starts at the whitespace after it. -/
theorem parseLine_word (cmd rest : Str) (hne : cmd ≠ [])
    (hcmd : ∀ c ∈ cmd, c ∉ ws) (hrest : ∀ c, rest.head? = some c → c ∈ ws)
    (hlen : (cmd ++ rest).length < npos) :
    parseLine (cmd ++ rest) = Parsed.token cmd rest := by
  obtain ⟨c0, cs, rfl⟩ := List.exists_cons_of_ne_nil hne
  have hc0 : ws.contains c0 = false := ws_contains_false c0 (hcmd c0 (List.mem_cons_self _ _))
  have hstart : find_first_not_of (c0 :: cs ++ rest) ws 0 = 0 := by
    simp [find_first_not_of, scan, hcmd c0 (List.mem_cons_self _ _)]
  have hnp : (0 : Nat) ≠ npos := by decide
  have hlen' : (c0 :: cs).length + rest.length < npos := by
    simp at hlen ⊢
    omega
  cases rest with
  | nil =>
    have hend : find_first_of (c0 :: cs ++ []) ws 0 = npos := by
      unfold find_first_of
      apply scan_none
      intro x hx
      have hx' : x ∈ c0 :: cs := by simpa using hx
      exact ws_contains_false x (hcmd x hx')
    have htake : List.take npos (c0 :: cs) = c0 :: cs :=
      List.take_of_length_le (by simp at hlen' ⊢; omega)
    simp only [parseLine, hstart, hend, if_neg hnp, if_true]
    simp [substr, htake]
  | cons r rs =>
    have hr : ws.contains r = true := (contains_ws_iff r).mpr (hrest r rfl)
    have hend : find_first_of (c0 :: cs ++ r :: rs) ws 0 = (c0 :: cs).length := by
      unfold find_first_of
      rw [List.drop_zero, scan_hit _ _ _ _ _ _ hr]
      · omega
      · intro x hx
        exact ws_contains_false x (hcmd x hx)
    have hne2 : (c0 :: cs).length ≠ npos := by omega
    simp only [parseLine, hstart, hend, if_neg hnp, if_neg hne2]
    rw [substr_zero_append, substr_drop_all _ _ (by simp at hlen' ⊢; omega)]

/-- Cutting the first word off a trimmed view: the second `substr` call of
`exit` and the unquoted branch of `type`. -/
theorem first_word (word rest : Str) (hword : ∀ c ∈ word, c ∉ ws)
    (hrest : ∀ c, rest.head? = some c → c ∈ ws)
    (hlen : (word ++ rest).length < npos) :
    substr (word ++ rest) 0 (find_first_of (word ++ rest) ws 0) = some word := by
  have hlen' : word.length + rest.length < npos := by simpa using hlen
  cases rest with
  | nil =>
    have hend : find_first_of (word ++ []) ws 0 = npos := by
      unfold find_first_of
      apply scan_none
      intro x hx
      have hx' : x ∈ word := by simpa using hx
      exact ws_contains_false x (hword x hx')
    have htake : List.take npos word = word :=
      List.take_of_length_le (by simp at hlen'; omega)
    rw [hend]
    simp [substr, htake]
  | cons r rs =>
    have hr : ws.contains r = true := (contains_ws_iff r).mpr (hrest r rfl)
    have hend : find_first_of (word ++ r :: rs) ws 0 = word.length := by
      unfold find_first_of
      rw [List.drop_zero, scan_hit _ _ _ _ _ _ hr]
      · omega
      · intro x hx
        exact ws_contains_false x (hword x hx)
    rw [hend, substr_zero_append]

/-- The handler `exit` on a remainder with a non-empty first word: the
process ends in `std::exit`, with the value `stoull` gives for that word, or
one when `stoull` throws. -/
theorem exit_word (w : World) (pre word rest : Str)
    (hpre : ∀ x ∈ pre, x ∈ ws) (hne : word ≠ []) (hword : ∀ c ∈ word, c ∉ ws)
    (hrest : ∀ c, rest.head? = some c → c ∈ ws)
    (hlen : (pre ++ (word ++ rest)).length < npos) :
    CommandExit.Execute w (pre ++ (word ++ rest)) =
      (Outcome.exit (toInt (match stoull word with
        | some v => v
        | none => 1)), w) := by
  obtain ⟨c0, cs, rfl⟩ := List.exists_cons_of_ne_nil hne
  have htrim := trim_lead pre c0 (cs ++ rest) hpre (hword c0 (List.mem_cons_self _ _))
    (by simpa using hlen)
  have hfw := first_word (c0 :: cs) rest hword hrest (by simp at hlen ⊢; omega)
  have e : pre ++ (c0 :: cs ++ rest) = pre ++ c0 :: (cs ++ rest) := by simp
  have e2 : c0 :: (cs ++ rest) = c0 :: cs ++ rest := by simp
  rw [e]
  simp only [CommandExit.Execute, htrim.2]
  rw [e2, hfw]
  simp

theorem digit_not_space (c : Char) (h : c.isDigit = true) :
    isspace c = false ∧ c ≠ '+' ∧ c ≠ '-' := by
  refine ⟨?_, ?_, ?_⟩
  · cases hs : isspace c with
    | false => rfl
    | true =>
      simp [isspace] at hs
      rcases hs with ((((rfl | rfl) | rfl) | rfl) | rfl) | rfl <;> simp at h
  · rintro rfl
    simp at h
  · rintro rfl
    simp at h

theorem takeWhile_digits (ds tail : Str) (hds : ∀ d ∈ ds, d.isDigit = true)
    (htail : ∀ c, tail.head? = some c → c.isDigit = false) :
    (ds ++ tail).takeWhile Char.isDigit = ds := by
  induction ds with
  | nil =>
    cases tail with
    | nil => rfl
    | cons t ts => simp [List.takeWhile, htail t rfl]
  | cons d ds ih =>
    have hd : d.isDigit = true := hds d (List.mem_cons_self _ _)
    simp [List.takeWhile, hd, ih (fun x hx => hds x (List.mem_cons_of_mem _ hx))]

/-- The library model on a word that starts with digits: the digit run is
converted and whatever follows it is ignored. -/
theorem stoull_digits (ds tail : Str) (hne : ds ≠ []) (hds : ∀ d ∈ ds, d.isDigit = true)
    (htail : ∀ c, tail.head? = some c → c.isDigit = false) :
    stoull (ds ++ tail) =
      if digitsValue ds 0 < 2 ^ 64 then some (digitsValue ds 0) else none := by
  obtain ⟨d0, dt, rfl⟩ := List.exists_cons_of_ne_nil hne
  have hd0 : d0.isDigit = true := hds d0 (List.mem_cons_self _ _)
  obtain ⟨h1, h2, h3⟩ := digit_not_space d0 hd0
  have htw := takeWhile_digits (d0 :: dt) tail hds htail
  have hdrop : (d0 :: dt ++ tail).dropWhile isspace = d0 :: dt ++ tail := by
    simp [List.dropWhile, h1]
  unfold stoull
  rw [hdrop]
  unfold stoullSigned
  have hhead : (d0 :: dt ++ tail).head? = some d0 := rfl
  simp only [hhead]
  have hm : (some d0 == some '-') = false := by simp [h3]
  have hp : (some d0 == some '+') = false := by simp [h2]
  simp only [hm, hp, Bool.or_false, Bool.false_eq_true, if_false, htw]
  generalize digitsValue (d0 :: dt) 0 = v
  by_cases hv : v < 18446744073709551616
  · simp [hv, Nat.not_le.mpr hv]
  · simp [hv, Nat.not_lt.mp hv]

/-- The library model on a word whose first character cannot start a number. -/
theorem stoull_no_number (word : Str)
    (h : ∀ c, word.head? = some c →
      c.isDigit = false ∧ c ≠ '+' ∧ c ≠ '-' ∧ isspace c = false) :
    stoull word = none := by
  cases word with
  | nil => rfl
  | cons c cs =>
    obtain ⟨h1, h2, h3, h4⟩ := h c rfl
    simp [stoull, List.dropWhile, h4, stoullSigned, h1, h2, h3, List.takeWhile]

theorem digitsValue_append (a b : Str) (acc : Nat) :
    digitsValue (a ++ b) acc = digitsValue b (digitsValue a acc) := by
  induction a generalizing acc with
  | nil => rfl
  | cons c cs ih => simp [digitsValue, ih]

theorem digitChar_spec : ∀ k, k < 10 →
    (Nat.digitChar k).isDigit = true ∧ (Nat.digitChar k).toNat - '0'.toNat = k := by
  decide

theorem toDigitsCore_spec (fuel n : Nat) (ds : Str) (h : n < fuel) :
    ∃ pre : Str, Nat.toDigitsCore 10 fuel n ds = pre ++ ds ∧ pre ≠ [] ∧
      (∀ d ∈ pre, d.isDigit = true) ∧ digitsValue pre 0 = n := by
  induction fuel generalizing n ds with
  | zero => omega
  | succ fuel ih =>
    obtain ⟨hdig, hval⟩ := digitChar_spec (n % 10) (Nat.mod_lt _ (by omega))
    by_cases h0 : n / 10 = 0
    · refine ⟨[Nat.digitChar (n % 10)], ?_, by simp, ?_, ?_⟩
      · simp [Nat.toDigitsCore, h0]
      · intro d hd
        simp at hd
        subst hd
        exact hdig
      · simp only [digitsValue, hval]
        omega
    · obtain ⟨pre, hpre, -, hall, hv⟩ :=
        ih (n / 10) (Nat.digitChar (n % 10) :: ds) (by omega)
      refine ⟨pre ++ [Nat.digitChar (n % 10)], ?_, by simp, ?_, ?_⟩
      · simp [Nat.toDigitsCore, h0, hpre]
      · intro d hd
        rcases List.mem_append.mp hd with hd | hd
        · exact hall d hd
        · simp at hd
          subst hd
          exact hdig
      · rw [digitsValue_append, hv]
        simp only [digitsValue, hval]
        omega

/-- The decimal numeral of `n`, as `Nat.repr` prints it, is a non-empty run of
digits whose value is `n`. -/
theorem repr_spec (n : Nat) :
    (Nat.repr n).toList ≠ [] ∧ (∀ d ∈ (Nat.repr n).toList, d.isDigit = true) ∧
      digitsValue (Nat.repr n).toList 0 = n := by
  obtain ⟨pre, hpre, hne, hall, hv⟩ := toDigitsCore_spec (n + 1) n [] (by omega)
  have e : (Nat.repr n).toList = pre := by
    simp [Nat.repr, Nat.toDigits, hpre, List.asString]
  rw [e]
  exact ⟨hne, hall, hv⟩

theorem toInt_small (n : Nat) (h : n < 2 ^ 31) : toInt n = (n : Int) := by
  have h1 : n % 2 ^ 32 = n := Nat.mod_eq_of_lt (by omega)
  simp only [toInt, h1, if_pos h]

/-- The library model on a word that starts with a sign. -/
theorem stoull_sign (sgn : Char) (body : Str) (hs : sgn = '+' ∨ sgn = '-') :
    stoull (sgn :: body) =
      if (body.takeWhile Char.isDigit).isEmpty then none
      else if digitsValue (body.takeWhile Char.isDigit) 0 < 2 ^ 64 then
        some (if sgn = '-' then (2 ^ 64 - digitsValue (body.takeWhile Char.isDigit) 0) % 2 ^ 64
          else digitsValue (body.takeWhile Char.isDigit) 0)
      else none := by
  generalize hv : digitsValue (body.takeWhile Char.isDigit) 0 = v
  by_cases hlt : v < 18446744073709551616
  · rcases hs with rfl | rfl <;>
      simp [stoull, stoullSigned, List.dropWhile, isspace, hv, hlt, Nat.not_le.mpr hlt]
  · rcases hs with rfl | rfl <;>
      simp [stoull, stoullSigned, List.dropWhile, isspace, hv, hlt, Nat.not_lt.mp hlt]

/-- A walk that finds no file and meets no error. -/
theorem searchPath_notFound (w : World) (name : Str) (dirs : List Str)
    (h : ∀ d ∈ dirs, w.isRegularFile w.cwd (pathJoin d name) = some false) :
    searchPath w name dirs = Search.notFound := by
  induction dirs with
  | nil => rfl
  | cons a as ih =>
    simp only [searchPath, h a (List.mem_cons_self _ _)]
    exact ih (fun d hd => h d (List.mem_cons_of_mem _ hd))

/-- The path search of `ExecuteExternal` when no listed directory holds the
command: whatever the trimmed remainder is, the answer is `command not found`. -/
theorem external_search_fails (w : World) (command input1 : Str)
    (hfs : ∀ p, w.pathEnv = some p →
      ∀ dir ∈ splitColon p, w.isRegularFile w.cwd (pathJoin dir command) = some false) :
    (match w.pathEnv with
      | none => (Outcome.ret (command ++ ": command not found".toList), w)
      | some pathEnv =>
        match searchPath w command (splitColon pathEnv) with
        | .found executable => ExecuteProgram w executable input1
        | .error => (Outcome.fsraise, w)
        | .notFound => (Outcome.ret (command ++ ": command not found".toList), w)) =
      (Outcome.ret (command ++ ": command not found".toList), w) := by
  cases hp : w.pathEnv with
  | none => rfl
  | some p =>
    simp only [searchPath_notFound w command (splitColon p) (hfs p hp)]

/-- An unknown command that is on no `PATH` directory, typed without leading
whitespace and followed by nothing or by whitespace and further text, is
answered with `command not found`. -/
theorem unknown_command_not_found (w : World) (c r : Str) (hne : c ≠ [])
    (hc : ∀ x ∈ c, x ∉ ws) (hkey : mapFind commandMap c = none)
    (hr : r = [] ∨ ∃ pre x rest, r = pre ++ x :: rest ∧ pre ≠ [] ∧
      (∀ y ∈ pre, y ∈ ws) ∧ x ∉ ws)
    (hfs : ∀ p, w.pathEnv = some p →
      ∀ dir ∈ splitColon p, w.isRegularFile w.cwd (pathJoin dir c) = some false)
    (hlen : (c ++ r).length < npos) :
    Execute w (c ++ r) = (Outcome.ret (c ++ ": command not found".toList), w) := by
  have hhead : ∀ x, r.head? = some x → x ∈ ws := by
    intro x hx
    rcases hr with rfl | ⟨pre, y, rest, rfl, hpre, hws, -⟩
    · simp at hx
    · obtain ⟨p0, ps, rfl⟩ := List.exists_cons_of_ne_nil hpre
      simp at hx
      subst hx
      exact hws _ (List.mem_cons_self _ _)
  have hparse := parseLine_word c r hne hc hhead hlen
  simp only [Execute, hparse, hkey, ExecuteExternal]
  rcases hr with rfl | ⟨pre, y, rest, rfl, -, hws, hy⟩
  · exact external_search_fails w c [] hfs
  · have htrim := trim_lead pre y rest hws hy (by simp at hlen ⊢; omega)
    have hnonempty : (pre ++ y :: rest).isEmpty = false := by
      cases pre <;> rfl
    simp only [hnonempty, Bool.not_false, if_true, htrim.2]
    exact external_search_fails w c (y :: rest) hfs

/-! ## The claims -/

/-- C1 at the line `"  echo hi"`: the view looked up in the registry is
`"echo h"`, six characters from the first non-whitespace one, because the end
position is passed to `substr` as a count; it is not a registry key, while the
word `echo` is, and the line ends as an unknown command. -/
theorem C1_leading_space_command_overruns :
    parseLine "  echo hi".toList = Parsed.token "echo h".toList " hi".toList ∧
    mapFind commandMap "echo h".toList = none ∧
    mapFind commandMap "echo".toList = some Builtin.Echo ∧
    (Execute bareWorld "  echo hi".toList).1 =
      Outcome.ret "echo h: command not found".toList := by
  decide

/-- C2 at the line `"  echo"`: no whitespace follows the word, yet the
remainder handed to the handler is `"ho"`, the suffix starting at index
`command.size()`, and `echo` returns it. -/
theorem C2_leading_space_remainder_not_empty (w : World) :
    parseLine "  echo".toList = Parsed.token "echo".toList "ho".toList ∧
    Execute w "  echo".toList = (Outcome.ret "ho".toList, w) :=
  ⟨by decide, rfl⟩

/-- C3: a line that is empty or made only of spaces, tabs and newlines is
parsed as "no command", and `Execute` returns the empty string in every
world, leaving the world as it was: no handler and no path lookup runs. -/
theorem C3_blank_line_returns_empty (w : World) (input : Str)
    (h : ∀ c ∈ input, c = ' ' ∨ c = '\t' ∨ c = '\n') :
    parseLine input = Parsed.noCommand ∧ Execute w input = (Outcome.ret [], w) := by
  have hscan : find_first_not_of input ws 0 = npos := by
    unfold find_first_not_of
    apply scan_none
    intro x hx
    have hx' : x ∈ input := by simpa using hx
    rcases h x hx' with rfl | rfl | rfl <;> decide
  have hp : parseLine input = Parsed.noCommand := by
    simp [parseLine, hscan]
  exact ⟨hp, by simp [Execute, hp]⟩

theorem C3_blank_line_returns_empty_witness :
    parseLine " \t ".toList = Parsed.noCommand ∧
      Execute bareWorld " \t ".toList = (Outcome.ret [], bareWorld) :=
  C3_blank_line_returns_empty bareWorld " \t ".toList (by decide)

/-- C4: for each of the five registry names `n`, the line `type n` returns
`n is a shell builtin` in every world; neither `PATH` nor the file system is
consulted. -/
theorem C4_type_of_builtin (w : World) (n : Str) (h : n ∈ commandMap.map Prod.fst) :
    Execute w ("type ".toList ++ n) = (Outcome.ret (n ++ " is a shell builtin".toList), w) := by
  simp [commandMap] at h
  rcases h with rfl | rfl | rfl | rfl | rfl <;> rfl

theorem C4_type_of_builtin_witness :
    Execute bareWorld ("type ".toList ++ "type".toList) =
      (Outcome.ret ("type".toList ++ " is a shell builtin".toList), bareWorld) :=
  C4_type_of_builtin bareWorld "type".toList (by decide)

/-- C5: for a string `s` without a single quote and any trailing text `t`,
the line `echo 's't` returns exactly `s`, the text between the first single
quote and the next one. -/
theorem C5_echo_quoted (w : World) (s t : Str) (hs : '\'' ∉ s)
    (hlen : ("echo '".toList ++ s ++ "'".toList ++ t).length < npos) :
    Execute w ("echo '".toList ++ s ++ "'".toList ++ t) = (Outcome.ret s, w) := by
  have hline : "echo '".toList ++ s ++ "'".toList ++ t =
      "echo".toList ++ ([' '] ++ '\'' :: (s ++ '\'' :: t)) := by simp
  rw [hline] at hlen ⊢
  have hparse : parseLine ("echo".toList ++ ([' '] ++ '\'' :: (s ++ '\'' :: t))) =
      Parsed.token "echo".toList ([' '] ++ '\'' :: (s ++ '\'' :: t)) :=
    parseLine_word "echo".toList _ (by decide) (by decide)
      (by intro c hc; simp at hc; subst hc; decide) hlen
  have hlen2 : s.length + t.length + 7 < npos := by
    simp at hlen; omega
  have htrim := trim_lead [' '] '\'' (s ++ '\'' :: t) (by decide) (by decide)
    (by simp; omega)
  have hq : find_first_of ('\'' :: (s ++ '\'' :: t)) ['\''] 1 = 1 + s.length := by
    unfold find_first_of
    simp only [List.drop_succ_cons, List.drop_zero]
    apply scan_hit
    · intro x hx
      have : x ≠ '\'' := fun e => hs (e ▸ hx)
      simp [this]
    · simp
  have hdecr : decr (1 + s.length) = s.length := by
    unfold decr
    rw [npos_eq] at hlen2
    omega
  have hsub : substr ('\'' :: (s ++ '\'' :: t)) 1 s.length = some s := by
    simp [substr]
  have hecho : CommandEcho.Execute w ([' '] ++ '\'' :: (s ++ '\'' :: t)) =
      (Outcome.ret s, w) := by
    simp only [CommandEcho.Execute, htrim.2, hq, hdecr, hsub]
    simp
  simp only [Execute, hparse]
  exact hecho

theorem C5_echo_quoted_witness :
    Execute bareWorld ("echo '".toList ++ "hello world".toList ++ "'".toList ++ []) =
      (Outcome.ret "hello world".toList, bareWorld) :=
  C5_echo_quoted bareWorld "hello world".toList [] (by decide) (by decide)

/-- C6, as the code has it: when the first non-whitespace character of the
remainder is not a single quote, `CommandEcho::Execute` returns everything
from that character to the end of the remainder, later words included; so
`echo`, whitespace, then such text returns the text whole. -/
theorem C6_echo_unquoted_returns_rest (w : World) (pre rest : Str) (c : Char)
    (hpre : ∀ x ∈ pre, x ∈ ws) (hc : c ∉ ws) (hq : c ≠ '\'')
    (hlen : ("echo".toList ++ (pre ++ c :: rest)).length < npos) :
    CommandEcho.Execute w (pre ++ c :: rest) = (Outcome.ret (c :: rest), w) ∧
    (pre ≠ [] →
      Execute w ("echo".toList ++ (pre ++ c :: rest)) = (Outcome.ret (c :: rest), w)) := by
  have htrim := trim_lead pre c rest hpre hc (by simp at hlen ⊢; omega)
  have hecho : CommandEcho.Execute w (pre ++ c :: rest) = (Outcome.ret (c :: rest), w) := by
    simp only [CommandEcho.Execute, htrim.2]
    simp [hq]
  refine ⟨hecho, fun hne => ?_⟩
  have hparse : parseLine ("echo".toList ++ (pre ++ c :: rest)) =
      Parsed.token "echo".toList (pre ++ c :: rest) := by
    apply parseLine_word _ _ (by decide) (by decide) _ hlen
    intro x hx
    obtain ⟨p0, ps, rfl⟩ := List.exists_cons_of_ne_nil hne
    simp at hx
    subst hx
    exact hpre _ (List.mem_cons_self _ _)
  simp only [Execute, hparse]
  exact hecho

theorem C6_echo_unquoted_returns_rest_witness :
    CommandEcho.Execute bareWorld (" ".toList ++ 'h' :: "ello world".toList) =
        (Outcome.ret ('h' :: "ello world".toList), bareWorld) ∧
    (" ".toList ≠ [] →
      Execute bareWorld ("echo".toList ++ (" ".toList ++ 'h' :: "ello world".toList)) =
        (Outcome.ret ('h' :: "ello world".toList), bareWorld)) :=
  C6_echo_unquoted_returns_rest bareWorld " ".toList "ello world".toList 'h'
    (by decide) (by decide) (by decide) (by decide)

/-- C6 as stated fails: `echo hello world` returns `hello world`, not the
single word `hello`. -/
theorem C6_counterexample :
    (Execute bareWorld ("echo ".toList ++ "hello".toList ++ " ".toList ++ "world".toList)).1 =
        Outcome.ret "hello world".toList ∧
    (Execute bareWorld ("echo ".toList ++ "hello".toList ++ " ".toList ++ "world".toList)).1 ≠
        Outcome.ret "hello".toList := by
  decide

/-- C7 at the lines `"echo"` and `"echo  "`: the first `substr` of the handler
is called at `npos` and `std::out_of_range` leaves `Execute`; nothing is
returned. -/
theorem C7_bare_echo_raises (w : World) :
    Execute w "echo".toList = (Outcome.raise, w) ∧
    Execute w "echo  ".toList = (Outcome.raise, w) :=
  ⟨rfl, rfl⟩

/-- C8 at the lines `"exit"` and `"exit  "`: the first `substr` of the handler
is called at `npos` and `std::out_of_range` leaves `Execute` before
`std::exit` is reached. -/
theorem C8_bare_exit_raises (w : World) :
    Execute w "exit".toList = (Outcome.raise, w) ∧
    Execute w "exit  ".toList = (Outcome.raise, w) ∧
    Execute w "exit".toList ≠ (Outcome.exit 0, w) :=
  ⟨rfl, rfl, fun h => by
    have h1 : Outcome.raise = Outcome.exit 0 := congrArg Prod.fst h
    cases h1⟩

/-- C9, as the code has it: on a remainder whose first word is non-empty the
handler always ends in `std::exit`. The code is `n`, converted to `int`, when
the word is the decimal numeral of `n < 2 ^ 64`; for a word that starts with
a run of digits it is the value of that run, whatever follows the digits (and
one when the run exceeds `2 ^ 64 - 1`); a leading sign is accepted before the
digits, a minus negating modulo `2 ^ 64`; and the code is one when the word
starts with neither a digit, a sign nor a space character of the C locale, or
with a sign that no digit follows. -/
theorem C9_exit_code (w : World) (pre word rest : Str)
    (hpre : ∀ x ∈ pre, x ∈ ws) (hne : word ≠ []) (hword : ∀ c ∈ word, c ∉ ws)
    (hrest : ∀ c, rest.head? = some c → c ∈ ws)
    (hlen : (pre ++ (word ++ rest)).length < npos) :
    (∀ n, n < 2 ^ 64 → word = (Nat.repr n).toList →
        CommandExit.Execute w (pre ++ (word ++ rest)) = (Outcome.exit (toInt n), w) ∧
        (n < 2 ^ 31 → toInt n = (n : Int))) ∧
    (∀ ds tail, word = ds ++ tail → ds ≠ [] → (∀ d ∈ ds, d.isDigit = true) →
        (∀ c, tail.head? = some c → c.isDigit = false) →
        CommandExit.Execute w (pre ++ (word ++ rest)) =
          (Outcome.exit (toInt (if digitsValue ds 0 < 2 ^ 64 then digitsValue ds 0 else 1)),
            w)) ∧
    (∀ sgn ds tail, word = sgn :: (ds ++ tail) → sgn = '+' ∨ sgn = '-' →
        (∀ d ∈ ds, d.isDigit = true) → (∀ c, tail.head? = some c → c.isDigit = false) →
        CommandExit.Execute w (pre ++ (word ++ rest)) =
          (Outcome.exit (toInt (if ds = [] ∨ 2 ^ 64 ≤ digitsValue ds 0 then 1
            else if sgn = '-' then (2 ^ 64 - digitsValue ds 0) % 2 ^ 64
            else digitsValue ds 0)), w)) ∧
    ((∀ c, word.head? = some c →
          c.isDigit = false ∧ c ≠ '+' ∧ c ≠ '-' ∧ isspace c = false) →
        CommandExit.Execute w (pre ++ (word ++ rest)) = (Outcome.exit 1, w)) := by
  have hexit := exit_word w pre word rest hpre hne hword hrest hlen
  have hdigits : ∀ ds tail, word = ds ++ tail → ds ≠ [] → (∀ d ∈ ds, d.isDigit = true) →
      (∀ c, tail.head? = some c → c.isDigit = false) →
      CommandExit.Execute w (pre ++ (word ++ rest)) =
        (Outcome.exit (toInt (if digitsValue ds 0 < 2 ^ 64 then digitsValue ds 0 else 1)),
          w) := by
    intro ds tail hw hds hall htail
    rw [hexit, hw, stoull_digits ds tail hds hall htail]
    by_cases hv : digitsValue ds 0 < 2 ^ 64
    · simp only [if_pos hv]
    · simp only [if_neg hv]
  refine ⟨?_, hdigits, ?_, ?_⟩
  · intro n hn hw
    obtain ⟨h1, h2, h3⟩ := repr_spec n
    refine ⟨?_, toInt_small n⟩
    have := hdigits (Nat.repr n).toList [] (by simpa using hw) h1 h2 (by simp)
    rw [h3, if_pos hn] at this
    exact this
  · intro sgn ds tail hw hs hall htail
    rw [hexit, hw, stoull_sign sgn (ds ++ tail) hs, takeWhile_digits ds tail hall htail]
    cases ds with
    | nil => simp
    | cons d dt =>
      by_cases hv : digitsValue (d :: dt) 0 < 2 ^ 64
      · have hv' : ¬ (2 ^ 64 ≤ digitsValue (d :: dt) 0) := Nat.not_le.mpr hv
        simp only [List.isEmpty_cons, Bool.false_eq_true, if_false, if_pos hv,
          false_or, if_neg hv', reduceCtorEq]
      · have hv' : 2 ^ 64 ≤ digitsValue (d :: dt) 0 := Nat.not_lt.mp hv
        simp only [List.isEmpty_cons, Bool.false_eq_true, if_false, if_neg hv,
          false_or, if_pos hv', reduceCtorEq]
  · intro h
    rw [hexit, stoull_no_number word h]
    rfl

theorem C9_exit_code_witness :
    CommandExit.Execute bareWorld (" ".toList ++ ("12abc".toList ++ [])) =
      (Outcome.exit 12, bareWorld) :=
  (C9_exit_code bareWorld " ".toList "12abc".toList [] (by decide) (by decide) (by decide)
    (by simp) (by decide)).2.1 "12".toList "abc".toList rfl (by decide) (by decide)
    (by decide)

/-- C9 as stated fails: the word `12abc` merely starts with digits, and the
process exits with code 12, not 1; the signed word `+5` exits with code 5. -/
theorem C9_counterexample :
    (Execute bareWorld "exit 12abc".toList).1 = Outcome.exit 12 ∧
    (Execute bareWorld "exit 12abc".toList).1 ≠ Outcome.exit 1 ∧
    (Execute bareWorld "exit +5".toList).1 = Outcome.exit 5 := by
  decide

/-- C10 at the line `"foobar123 "`: the remainder is one space, the trimming
`substr` of `ExecuteExternal` is called at `npos`, and `std::out_of_range`
leaves `Execute` in every world, before `PATH` is read. -/
theorem C10_trailing_space_unknown_command_raises (w : World) :
    mapFind commandMap "foobar123".toList = none ∧
    parseLine "foobar123 ".toList = Parsed.token "foobar123".toList " ".toList ∧
    Execute w "foobar123 ".toList = (Outcome.raise, w) :=
  ⟨by decide, by decide, rfl⟩

/-- What a scan returns: `npos`, or the index of the first character that
satisfies the predicate. -/
theorem scan_cases (p : Char → Bool) (l : Str) (i : Nat) :
    scan p l i = npos ∨
    ∃ l1 c l2, l = l1 ++ c :: l2 ∧ p c = true ∧ (∀ x ∈ l1, p x = false) ∧
      scan p l i = i + l1.length := by
  induction l generalizing i with
  | nil => exact Or.inl rfl
  | cons d ds ih =>
    by_cases hd : p d = true
    · exact Or.inr ⟨[], d, ds, rfl, hd, by simp, by simp [scan, hd]⟩
    · have hd' : p d = false := by simpa using hd
      rcases ih (i + 1) with h | ⟨l1, c, l2, rfl, hc, hl1, hs⟩
      · exact Or.inl (by simp [scan, hd', h])
      · refine Or.inr ⟨d :: l1, c, l2, rfl, hc, ?_, ?_⟩
        · intro x hx
          rcases List.mem_cons.mp hx with rfl | hx
          · exact hd'
          · exact hl1 x hx
        · simp [scan, hd', hs]
          omega

/-- One iteration of the loop of `LoadArgv`: the view that replaces `args` is
strictly shorter, and, for a view within the size limit, it is a suffix of
`args` that starts after the space just found. -/
theorem LoadArgv_step (args args1 : Str) (hpos : find args ' ' ≠ npos)
    (h : substr args (find_first_not_of args ws (find args ' ')) npos = some args1) :
    args1.length < args.length ∧
    (args.length ≤ npos →
      find args ' ' < find_first_not_of args ws (find args ' ') ∧ args1 <:+ args) := by
  rcases scan_cases (fun d => d == ' ') args 0 with hn | ⟨l1, c, l2, rfl, hc, -, hs⟩
  · exact absurd hn hpos
  · have hc' : c = ' ' := by simpa using hc
    subst hc'
    have hfind : find (l1 ++ ' ' :: l2) ' ' = l1.length := by
      unfold find
      rw [hs]
      omega
    rw [hfind] at h ⊢
    have hdrop : (l1 ++ ' ' :: l2).drop l1.length = ' ' :: l2 := by simp
    have hq : find_first_not_of (l1 ++ ' ' :: l2) ws l1.length =
        scan (fun c => !ws.contains c) l2 (l1.length + 1) := by
      unfold find_first_not_of
      rw [hdrop]
      simp [scan, ws]
    rw [hq] at h ⊢
    have hnp : 0 < npos := by decide
    unfold substr at h
    split at h
    · exact absurd h (by simp)
    · rename_i hle
      have h1 : args1 = ((l1 ++ ' ' :: l2).drop
          (scan (fun c => !ws.contains c) l2 (l1.length + 1))).take npos :=
        (Option.some.inj h).symm
      have hpos1 : 0 < scan (fun c => !ws.contains c) l2 (l1.length + 1) := by
        rcases scan_cases (fun c => !ws.contains c) l2 (l1.length + 1) with e | ⟨m, _, _, _, _, _, e⟩
        · rw [e]; exact hnp
        · rw [e]; omega
      have hgt : ∀ _ : (l1 ++ ' ' :: l2).length ≤ npos,
          l1.length < scan (fun c => !ws.contains c) l2 (l1.length + 1) := by
        intro hlen
        rcases scan_cases (fun c => !ws.contains c) l2 (l1.length + 1) with e | ⟨m, _, _, _, _, _, e⟩
        · rw [e]
          simp at hlen
          omega
        · rw [e]; omega
      refine ⟨?_, fun hlen => ⟨hgt hlen, ?_⟩⟩
      · rw [h1]
        have hlen0 : 0 < (l1 ++ ' ' :: l2).length := by simp
        simp only [List.length_take, List.length_drop]
        omega
      · rw [h1, List.take_of_length_le]
        · exact List.drop_suffix _ _
        · rw [List.length_drop]
          omega

/-- The bounded loop never runs out of iterations when it is given more of
them than `args` has characters, and it adds at most one word per character,
one last word and the null pointer. -/
theorem LoadArgvLoop_bound (fuel : Nat) (args : Str) (argv : List (Option Str))
    (hf : args.length < fuel) :
    LoadArgvLoop fuel args argv ≠ ArgvResult.hang ∧
    ∀ res, LoadArgvLoop fuel args argv = ArgvResult.ok res →
      res.length ≤ argv.length + args.length + 2 := by
  induction fuel generalizing args argv with
  | zero => omega
  | succ fuel ih =>
    by_cases hpos : find args ' ' = npos
    · simp [LoadArgvLoop, hpos]
    · cases h1 : substr args 0 (find args ' ') with
      | none => simp [LoadArgvLoop, hpos, h1]
      | some word =>
        cases h2 : substr args (find_first_not_of args ws (find args ' ')) npos with
        | none => simp [LoadArgvLoop, hpos, h1, h2]
        | some args1 =>
          have hstep := (LoadArgv_step args args1 hpos h2).1
          obtain ⟨ihn, ihl⟩ := ih args1 (argv ++ [some word]) (by omega)
          simp only [LoadArgvLoop, hpos, h1, h2, ne_eq, not_false_eq_true, if_true]
          refine ⟨ihn, fun res hres => ?_⟩
          have := ihl res hres
          simp at this
          omega

/-- More iterations than `args` has characters never change the result. -/
theorem LoadArgvLoop_fuel (fuel fuel2 : Nat) (args : Str) (argv : List (Option Str))
    (hf : args.length < fuel) (hf2 : args.length < fuel2) :
    LoadArgvLoop fuel args argv = LoadArgvLoop fuel2 args argv := by
  induction fuel generalizing fuel2 args argv with
  | zero => omega
  | succ fuel ih =>
    cases fuel2 with
    | zero => omega
    | succ fuel2 =>
      by_cases hpos : find args ' ' = npos
      · simp [LoadArgvLoop, hpos]
      · cases h1 : substr args 0 (find args ' ') with
        | none => simp [LoadArgvLoop, hpos, h1]
        | some word =>
          cases h2 : substr args (find_first_not_of args ws (find args ' ')) npos with
          | none => simp [LoadArgvLoop, hpos, h1, h2]
          | some args1 =>
            have hstep := (LoadArgv_step args args1 hpos h2).1
            simp only [LoadArgvLoop, hpos, h1, h2, ne_eq, not_false_eq_true, if_true]
            exact ih fuel2 args1 _ (by omega) (by omega)

theorem decr_npos : decr npos = 2 ^ 64 - 2 := by decide

/-- The handler `type` on an opening quote that is never closed: the argument
is everything after the quote. -/
theorem type_unterminated (m : List (Str × Builtin)) (w : World) (pre s : Str)
    (hpre : ∀ x ∈ pre, x ∈ ws) (hs : '\'' ∉ s)
    (hlen : (pre ++ '\'' :: s).length < npos) :
    substr ('\'' :: s) 1 (decr (find_first_of ('\'' :: s) ['\''] 1)) = some s ∧
    CommandType.Execute m w (pre ++ '\'' :: s) = typeReport m w s := by
  have htrim := trim_lead pre '\'' s hpre (by decide) hlen
  have hfind : find_first_of ('\'' :: s) ['\''] 1 = npos := by
    unfold find_first_of
    simp only [List.drop_succ_cons, List.drop_zero]
    apply scan_none
    intro x hx
    have : x ≠ '\'' := fun e => hs (e ▸ hx)
    simp [this]
  have hsub : substr ('\'' :: s) 1 (decr (find_first_of ('\'' :: s) ['\''] 1)) = some s := by
    rw [hfind, decr_npos]
    have hl : s.length ≤ 18446744073709551614 := by
      rw [npos_eq] at hlen
      simp at hlen
      omega
    simp [substr, List.take_of_length_le hl]
  refine ⟨hsub, ?_⟩
  have hcond : (!('\'' :: s).isEmpty && ('\'' :: s).head? == some '\'') = true := by simp
  simp only [CommandType.Execute, htrim.2, hcond, if_true, hsub]
  rfl

theorem scanBack_hit (p : Char → Bool) (l1 : Str) (c : Char) (l2 : Str) (n : Nat)
    (h : ∀ x ∈ l1, p x = false) (hc : p c = true) :
    scanBack p (l1 ++ c :: l2) n = n - l1.length - 1 := by
  induction l1 generalizing n with
  | nil => simp [scanBack, hc]
  | cons d ds ih =>
    have hd : p d = false := h d (List.mem_cons_self d ds)
    have hds : ∀ x ∈ ds, p x = false := fun x hx => h x (List.mem_cons_of_mem d hx)
    simp [scanBack, hd, ih (n - 1) hds]
    omega

/-- Dropping trailing characters of the set `" \t\n"`: the second `substr`
call of `cd`. -/
theorem trim_tail (a : Str) (d : Char) (post : Str) (hd : d ∉ ws)
    (hpost : ∀ x ∈ post, x ∈ ws) (hlen : (a ++ [d] ++ post).length < npos) :
    substr (a ++ [d] ++ post) 0 (incr (find_last_not_of (a ++ [d] ++ post) ws)) =
      some (a ++ [d]) := by
  have hrev : (a ++ [d] ++ post).reverse = post.reverse ++ d :: a.reverse := by simp
  have hfind : find_last_not_of (a ++ [d] ++ post) ws = a.length := by
    unfold find_last_not_of
    rw [hrev, scanBack_hit]
    · simp
      omega
    · intro x hx
      simp [hpost x (List.mem_reverse.mp hx)]
    · simp [hd]
  have hincr : incr a.length = (a ++ [d]).length := by
    unfold incr
    rw [npos_eq] at hlen
    simp at hlen ⊢
    omega
  rw [hfind, hincr, substr_zero_append]

/-- The handler `cd` on a remainder that holds a non-empty trimmed argument:
both trimming calls succeed and the non-empty branch runs on the argument. -/
theorem cd_argument (w : World) (pre arg post : Str)
    (hpre : ∀ x ∈ pre, x ∈ ws) (hpost : ∀ x ∈ post, x ∈ ws) (hne : arg ≠ [])
    (hhead : ∀ c, arg.head? = some c → c ∉ ws)
    (hlast : ∀ c, arg.getLast? = some c → c ∉ ws)
    (hlen : (pre ++ (arg ++ post)).length < npos) :
    (substr (pre ++ (arg ++ post)) (find_first_not_of (pre ++ (arg ++ post)) ws 0) npos =
        some (arg ++ post) ∧
      substr (arg ++ post) 0 (incr (find_last_not_of (arg ++ post) ws)) = some arg) ∧
    CommandCd.Execute w (pre ++ (arg ++ post)) =
      (match (if arg.head? == some '~' then
          (match w.homeEnv with
            | none => none
            | some homeDir => some (homeDir ++ arg.drop 1))
          else some arg) with
        | none => (Outcome.ret "Error: HOME environment variable is not set.".toList, w)
        | some path =>
          match chdir w path with
          | some w1 => (Outcome.ret [], w1)
          | none =>
            (Outcome.ret ("cd: ".toList ++ path ++ ": No such file or directory".toList),
              w)) := by
  have htail : substr (arg ++ post) 0 (incr (find_last_not_of (arg ++ post) ws)) =
      some arg := by
    rcases List.eq_nil_or_concat arg with h | ⟨a, d, rfl⟩
    · exact absurd h hne
    · have hd : d ∉ ws := hlast d (by simp)
      have := trim_tail a d post hd hpost (by simp at hlen ⊢; omega)
      simpa using this
  obtain ⟨c0, cs, rfl⟩ := List.exists_cons_of_ne_nil hne
  have htrim := trim_lead pre c0 (cs ++ post) hpre (hhead c0 rfl) (by simpa using hlen)
  have e : pre ++ (c0 :: cs ++ post) = pre ++ c0 :: (cs ++ post) := by simp
  have e2 : c0 :: (cs ++ post) = c0 :: cs ++ post := by simp
  have hlead : substr (pre ++ (c0 :: cs ++ post))
      (find_first_not_of (pre ++ (c0 :: cs ++ post)) ws 0) npos = some (c0 :: cs ++ post) := by
    rw [e, htrim.2, e2]
  refine ⟨⟨hlead, htail⟩, ?_⟩
  have hemp : (c0 :: cs).isEmpty = false := rfl
  simp only [CommandCd.Execute, hlead, htail, hemp, Bool.false_eq_true, if_false]

theorem exists_first (p : Char → Bool) (l : Str) (h : ∃ x ∈ l, p x = true) :
    ∃ l1 c l2, l = l1 ++ c :: l2 ∧ p c = true ∧ ∀ x ∈ l1, p x = false := by
  induction l with
  | nil =>
    obtain ⟨x, hx, -⟩ := h
    exact absurd hx (List.not_mem_nil x)
  | cons d ds ih =>
    by_cases hd : p d = true
    · exact ⟨[], d, ds, rfl, hd, by simp⟩
    · have hd' : p d = false := by simpa using hd
      obtain ⟨x, hx, hpx⟩ := h
      rcases List.mem_cons.mp hx with rfl | hx
      · exact absurd hpx hd
      · obtain ⟨l1, c, l2, rfl, hc, hl1⟩ := ih ⟨x, hx, hpx⟩
        refine ⟨d :: l1, c, l2, rfl, hc, ?_⟩
        intro y hy
        rcases List.mem_cons.mp hy with rfl | hy
        · exact hd'
        · exact hl1 y hy

theorem exists_last (p : Char → Bool) (l : Str) (h : ∃ x ∈ l, p x = true) :
    ∃ l1 c l2, l = l1 ++ c :: l2 ∧ p c = true ∧ ∀ x ∈ l2, p x = false := by
  obtain ⟨x, hx, hpx⟩ := h
  obtain ⟨l1, c, l2, hl, hc, hl1⟩ := exists_first p l.reverse ⟨x, List.mem_reverse.mpr hx, hpx⟩
  refine ⟨l2.reverse, c, l1.reverse, ?_, hc, ?_⟩
  · have := congrArg List.reverse hl
    simpa using this
  · intro y hy
    exact hl1 y (List.mem_reverse.mp hy)

/-- A view with a character outside `" \t\n"` is leading whitespace, a
non-empty argument that neither starts nor ends with whitespace, and trailing
whitespace. -/
theorem exists_trim (l : Str) (h : ∃ c ∈ l, c ∉ ws) :
    ∃ pre arg post, l = pre ++ (arg ++ post) ∧ (∀ x ∈ pre, x ∈ ws) ∧
      (∀ x ∈ post, x ∈ ws) ∧ arg ≠ [] ∧ (∀ c, arg.head? = some c → c ∉ ws) ∧
      (∀ c, arg.getLast? = some c → c ∉ ws) := by
  obtain ⟨x, hx, hxw⟩ := h
  obtain ⟨pre, c, rest, rfl, hc, hpre⟩ :=
    exists_first (fun c => decide (c ∉ ws)) l ⟨x, hx, by simpa using hxw⟩
  obtain ⟨a, d, post, hsplit, hd, hpost⟩ :=
    exists_last (fun c => decide (c ∉ ws)) (c :: rest) ⟨c, List.mem_cons_self _ _, hc⟩
  have hc' : c ∉ ws := by simpa using hc
  have hd' : d ∉ ws := by simpa using hd
  refine ⟨pre, a ++ [d], post, ?_, ?_, ?_, by simp, ?_, ?_⟩
  · rw [hsplit]
    simp
  · intro y hy
    have := hpre y hy
    simpa using this
  · intro y hy
    have := hpost y hy
    simpa using this
  · intro y hy
    cases a with
    | nil =>
      simp at hy
      subst hy
      exact hd'
    | cons a0 as =>
      simp at hy hsplit
      subst hy
      rw [← hsplit.1]
      exact hc'
  · intro y hy
    simp at hy
    subst hy
    exact hd'

/-- The line `cd a` hands a space and `a` to the handler of `cd`. -/
theorem cd_line (w : World) (a : Str)
    (hlen : ("cd ".toList ++ a).length < npos) :
    Execute w ("cd ".toList ++ a) = CommandCd.Execute w ([' '] ++ (a ++ [])) := by
  have e : "cd ".toList ++ a = "cd".toList ++ ([' '] ++ (a ++ [])) := by simp
  rw [e] at hlen ⊢
  have hparse : parseLine ("cd".toList ++ ([' '] ++ (a ++ []))) =
      Parsed.token "cd".toList ([' '] ++ (a ++ [])) :=
    parseLine_word "cd".toList _ (by decide) (by decide)
      (by intro c hc; simp at hc; subst hc; decide) hlen
  have hkey : mapFind commandMap "cd".toList = some Builtin.Cd := by decide
  simp only [Execute, hparse, hkey, Builtin.Execute]

theorem getlineDirs_eq_nil (p : Str) : getlineDirs p = [] ↔ p = [] := by
  cases p with
  | nil => simp [getlineDirs]
  | cons c cs =>
    by_cases hc : c = ':'
    · simp [getlineDirs, hc]
    · cases h : getlineDirs cs <;> simp [getlineDirs, hc, h]

/-- How the two directory lists differ: the loop of `ExecuteExternal` has one
more entry, an empty one at the end, exactly when `PATH` is empty or ends in a
colon; otherwise the lists are equal. -/
theorem splitColon_getlineDirs (p : Str) :
    splitColon p =
      if p = [] ∨ p.getLast? = some ':' then getlineDirs p ++ [[]] else getlineDirs p := by
  induction p with
  | nil => simp [splitColon, getlineDirs]
  | cons c cs ih =>
    by_cases hcs : cs = []
    · subst hcs
      by_cases hc : c = ':'
      · simp [splitColon, getlineDirs, hc]
      · simp [splitColon, getlineDirs, hc]
    · have hlast : (c :: cs).getLast? = cs.getLast? := by
        obtain ⟨d, ds, rfl⟩ := List.exists_cons_of_ne_nil hcs
        simp [List.getLast?_cons_cons]
      have hg : getlineDirs cs ≠ [] := fun h => hcs ((getlineDirs_eq_nil cs).mp h)
      obtain ⟨g, gs, hgs⟩ := List.exists_cons_of_ne_nil hg
      simp only [hcs, false_or] at ih
      simp only [List.cons_ne_nil, false_or, hlast]
      by_cases hl : cs.getLast? = some ':'
      · simp only [hl, if_true] at ih ⊢
        by_cases hc : c = ':'
        · simp [splitColon, getlineDirs, hc, ih]
        · simp [splitColon, getlineDirs, hc, ih, hgs]
      · simp only [hl, if_false] at ih ⊢
        by_cases hc : c = ':'
        · simp [splitColon, getlineDirs, hc, ih]
        · simp [splitColon, getlineDirs, hc, ih, hgs]

theorem splitColon_ne_nil (p : Str) : splitColon p ≠ [] := by
  cases p with
  | nil => simp [splitColon]
  | cons c cs =>
    by_cases hc : c = ':'
    · simp [splitColon, hc]
    · cases h : splitColon cs <;> simp [splitColon, hc, h]

/-- Every `PATH` value is a list of colon-free directories joined by colons:
the list the loop of `ExecuteExternal` cuts it into. -/
theorem intercalate_splitColon (p : Str) :
    List.intercalate [':'] (splitColon p) = p ∧ ∀ e ∈ splitColon p, ':' ∉ e := by
  induction p with
  | nil => simp [splitColon, List.intercalate]
  | cons c cs ih =>
    obtain ⟨x, xs, hx⟩ := List.exists_cons_of_ne_nil (splitColon_ne_nil cs)
    rw [hx] at ih
    obtain ⟨hj, hm⟩ := ih
    by_cases hc : c = ':'
    · subst hc
      have hs : splitColon (':' :: cs) = [] :: x :: xs := by simp [splitColon, hx]
      rw [hs]
      constructor
      · have : List.intercalate [':'] ([] :: x :: xs) =
            ':' :: List.intercalate [':'] (x :: xs) := by simp [List.intercalate]
        rw [this, hj]
      · intro e he
        rcases List.mem_cons.mp he with rfl | he
        · simp
        · exact hm e he
    · have hs : splitColon (c :: cs) = (c :: x) :: xs := by simp [splitColon, hc, hx]
      rw [hs]
      constructor
      · have : List.intercalate [':'] ((c :: x) :: xs) =
            c :: List.intercalate [':'] (x :: xs) := by
          cases xs <;> simp [List.intercalate]
        rw [this, hj]
      · intro e he
        rcases List.mem_cons.mp he with rfl | he
        · have hxm : ':' ∉ x := hm x (List.mem_cons_self _ _)
          intro hmem
          rcases List.mem_cons.mp hmem with h | h
          · exact hc h.symm
          · exact hxm h
        · exact hm e (List.mem_cons_of_mem _ he)

/-- C11 at the remainders `""` and `"a\tb"`: for an empty remainder the
vector is the path, an empty string and the null pointer, three entries and
not two; and a tab does not end a word, since the loop looks for a space
only. The empty remainder is what the line `ls` hands to `ExecuteProgram`. -/
theorem C11_argv_empty_word_and_tab (p : Str) :
    LoadArgv [] (PushWord p []) = ArgvResult.ok [some p, some [], none] ∧
    LoadArgv [] (PushWord p []) ≠ ArgvResult.ok [some p, none] ∧
    LoadArgv "a\tb".toList (PushWord p []) =
      ArgvResult.ok [some p, some "a\tb".toList, none] ∧
    (Execute lsWorld "ls".toList).1 = (ExecuteProgram lsWorld "/usr/bin/ls".toList []).1 :=
  ⟨rfl, fun h => by
    have h1 : LoadArgv [] (PushWord p []) = ArgvResult.ok [some p, some [], none] := rfl
    rw [h1] at h
    simp at h, rfl, by decide⟩

/-- C14 at the remainders `""` and `"  "`: the first `substr` of the handler is
called at `npos`, `std::out_of_range` leaves it, and the line `cd` ends the
same way in every world, whether `HOME` is set or not. -/
theorem C14_bare_cd_raises (w : World) :
    CommandCd.Execute w [] = (Outcome.raise, w) ∧
    CommandCd.Execute w "  ".toList = (Outcome.raise, w) ∧
    Execute w "cd".toList = (Outcome.raise, w) ∧
    Execute w "cd  ".toList = (Outcome.raise, w) :=
  ⟨rfl, rfl, rfl, rfl⟩

/-- C15: a `cd` argument that begins with `~`. With `HOME` unset the handler
returns the `HOME` error and the world is untouched; with `HOME` set to `h`
the one directory it tries is `h` followed by the argument without its `~`,
returning empty output in the world after the change when that succeeds. -/
theorem C15_cd_tilde (w : World) (pre rest post : Str)
    (hpre : ∀ x ∈ pre, x ∈ ws) (hpost : ∀ x ∈ post, x ∈ ws)
    (hlast : ∀ c, ('~' :: rest).getLast? = some c → c ∉ ws)
    (hlen : (pre ++ ('~' :: rest ++ post)).length < npos) :
    (w.homeEnv = none →
      CommandCd.Execute w (pre ++ ('~' :: rest ++ post)) =
        (Outcome.ret "Error: HOME environment variable is not set.".toList, w)) ∧
    (∀ h, w.homeEnv = some h →
      (∀ w1, chdir w (h ++ rest) = some w1 →
        CommandCd.Execute w (pre ++ ('~' :: rest ++ post)) = (Outcome.ret [], w1)) ∧
      (chdir w (h ++ rest) = none →
        CommandCd.Execute w (pre ++ ('~' :: rest ++ post)) =
          (Outcome.ret ("cd: ".toList ++ (h ++ rest) ++
            ": No such file or directory".toList), w))) := by
  have hcd := (cd_argument w pre ('~' :: rest) post hpre hpost (by simp)
    (by intro c hc; simp at hc; subst hc; decide) hlast hlen).2
  have hcond : (('~' :: rest).head? == some '~') = true := by simp
  rw [hcd]
  simp only [hcond, if_true, List.drop_succ_cons, List.drop_zero]
  refine ⟨fun hn => ?_, fun h hh => ⟨fun w1 hw1 => ?_, fun hf => ?_⟩⟩
  · simp only [hn]
  · simp only [hh, hw1]
  · simp only [hh, hf]

theorem C15_cd_tilde_witness :
    CommandCd.Execute homeWorld (" ".toList ++ ('~' :: [] ++ [])) =
      (Outcome.ret [], { homeWorld with cwd := "/home/u".toList }) :=
  ((C15_cd_tilde homeWorld " ".toList [] [] (by decide) (by simp)
    (by intro c hc; simp at hc; subst hc; decide) (by decide)).2
    "/home/u".toList rfl).1 _ rfl

/-- C16, as the code has it: when changing the directory fails, the world, and
with it the working directory, is unchanged, and the message names the path
that was tried: the argument itself when it does not start with `~`, and the
home directory followed by the rest of the argument when it does. -/
theorem C16_cd_failure (w : World) (a : Str) (hne : a ≠ [])
    (hhead : ∀ c, a.head? = some c → c ∉ ws)
    (hlast : ∀ c, a.getLast? = some c → c ∉ ws)
    (hlen : ("cd ".toList ++ a).length < npos) :
    (a.head? ≠ some '~' → chdir w a = none →
      Execute w ("cd ".toList ++ a) =
        (Outcome.ret ("cd: ".toList ++ a ++ ": No such file or directory".toList), w)) ∧
    (∀ h rest, a = '~' :: rest → w.homeEnv = some h → chdir w (h ++ rest) = none →
      Execute w ("cd ".toList ++ a) =
        (Outcome.ret ("cd: ".toList ++ (h ++ rest) ++
          ": No such file or directory".toList), w)) := by
  have hcd := (cd_argument w [' '] a [] (by decide) (by simp) hne hhead hlast
    (by simp at hlen ⊢; omega)).2
  rw [cd_line w a hlen, hcd]
  refine ⟨fun ht hf => ?_, fun h rest ha hh hf => ?_⟩
  · have hcond : (a.head? == some '~') = false := by simpa using ht
    simp only [hcond, Bool.false_eq_true, if_false, hf]
  · subst ha
    have hcond : (('~' :: rest).head? == some '~') = true := by simp
    simp only [hcond, if_true, List.drop_succ_cons, List.drop_zero, hh, hf]

theorem C16_cd_failure_witness :
    Execute bareWorld ("cd ".toList ++ "nosuch".toList) =
      (Outcome.ret ("cd: ".toList ++ "nosuch".toList ++
        ": No such file or directory".toList), bareWorld) :=
  (C16_cd_failure bareWorld "nosuch".toList (by decide) (by decide) (by decide)
    (by decide)).1 (by decide) rfl

/-- C16 as stated fails for an argument that starts with `~`: with `HOME` set
to `/home/u` and no such directory, `cd ~/x` names the expanded path in its
message, not the argument as typed. -/
theorem C16_counterexample :
    (Execute homeWorld "cd ~/x".toList).1 =
        Outcome.ret "cd: /home/u/x: No such file or directory".toList ∧
    (Execute homeWorld "cd ~/x".toList).1 ≠
        Outcome.ret ("cd: ".toList ++ "~/x".toList ++ ": No such file or directory".toList) := by
  decide

/-- C17: an opening single quote that is never closed is clamped to the end
of the remainder. When the trimmed remainder is a quote followed by a text
`s` without a quote, the second `substr` returns `s` (it does not raise),
`echo` returns `s`, and `type` reports on the argument `s`. -/
theorem C17_unterminated_quote (w : World) (pre s : Str)
    (hpre : ∀ x ∈ pre, x ∈ ws) (hs : '\'' ∉ s)
    (hlen : (pre ++ '\'' :: s).length < npos) :
    substr ('\'' :: s) 1 (decr (find_first_of ('\'' :: s) ['\''] 1)) = some s ∧
    CommandEcho.Execute w (pre ++ '\'' :: s) = (Outcome.ret s, w) ∧
    CommandType.Execute commandMap w (pre ++ '\'' :: s) = typeReport commandMap w s ∧
    (CommandType.Execute commandMap w (pre ++ '\'' :: s)).1 ≠ Outcome.raise := by
  obtain ⟨hsub, htype⟩ := type_unterminated commandMap w pre s hpre hs hlen
  have htrim := trim_lead pre '\'' s hpre (by decide) hlen
  refine ⟨hsub, ?_, htype, ?_⟩
  · have hcond : (!('\'' :: s).isEmpty && ('\'' :: s).head? == some '\'') = true := by simp
    simp only [CommandEcho.Execute, htrim.2, hcond, if_true, hsub]
  · rw [htype]
    unfold typeReport
    repeat' split
    all_goals simp

theorem C17_unterminated_quote_witness :
    substr ('\'' :: "pwd x".toList) 1
        (decr (find_first_of ('\'' :: "pwd x".toList) ['\''] 1)) = some "pwd x".toList ∧
    CommandEcho.Execute bareWorld (" ".toList ++ '\'' :: "pwd x".toList) =
      (Outcome.ret "pwd x".toList, bareWorld) ∧
    CommandType.Execute commandMap bareWorld (" ".toList ++ '\'' :: "pwd x".toList) =
      typeReport commandMap bareWorld "pwd x".toList ∧
    (CommandType.Execute commandMap bareWorld (" ".toList ++ '\'' :: "pwd x".toList)).1 ≠
      Outcome.raise :=
  C17_unterminated_quote bareWorld " ".toList "pwd x".toList (by decide) (by decide)
    (by decide)

/-- C18 at `PATH=/usr/bin:` with a regular file `prog` in the working
directory: the loop of `type` yields the one directory `/usr/bin`, the loop
of `ExecuteExternal` yields `/usr/bin` and the empty directory; `type prog`
reports `not found` while the line `prog` runs the file `prog`. -/
theorem C18_path_lists_differ :
    getlineDirs "/usr/bin:".toList = ["/usr/bin".toList] ∧
    splitColon "/usr/bin:".toList = ["/usr/bin".toList, []] ∧
    mapFind commandMap "prog".toList = none ∧
    (Execute dotWorld "type prog".toList).1 = Outcome.ret "prog: not found".toList ∧
    (Execute dotWorld "prog".toList).1 =
      (ExecuteProgram dotWorld (pathJoin [] "prog".toList) []).1 ∧
    (Execute dotWorld "prog".toList).1 ≠ Outcome.ret "prog: command not found".toList := by
  decide

/-- C19: the branch of `cd` guarded by `input.empty()` cannot be reached. On
a remainder made only of whitespace the first `substr` raises; on any other
remainder both trimming calls succeed and leave a non-empty argument; and no
remainder makes the handler return `Error: Unable to change to home
directory.`. -/
theorem C19_cd_home_branch_unreachable (w : World) (input : Str)
    (hlen : input.length < npos) :
    ((∀ c ∈ input, c ∈ ws) → CommandCd.Execute w input = (Outcome.raise, w)) ∧
    ((∃ c ∈ input, c ∉ ws) →
      ∃ input1 input2,
        substr input (find_first_not_of input ws 0) npos = some input1 ∧
        substr input1 0 (incr (find_last_not_of input1 ws)) = some input2 ∧
        input2 ≠ []) ∧
    (CommandCd.Execute w input).1 ≠
      Outcome.ret "Error: Unable to change to home directory.".toList := by
  have hblank : (∀ c ∈ input, c ∈ ws) → CommandCd.Execute w input = (Outcome.raise, w) := by
    intro hb
    have hscan : find_first_not_of input ws 0 = npos := by
      unfold find_first_not_of
      apply scan_none
      intro x hx
      have hx' : x ∈ input := by simpa using hx
      simp [hb x hx']
    have hsub : substr input npos npos = none := by
      simp [substr, hlen]
    simp only [CommandCd.Execute, hscan, hsub]
  refine ⟨hblank, ?_, ?_⟩
  · intro hc
    obtain ⟨pre, arg, post, rfl, hpre, hpost, hne, hhead, hlast⟩ := exists_trim input hc
    obtain ⟨⟨h1, h2⟩, -⟩ := cd_argument w pre arg post hpre hpost hne hhead hlast hlen
    exact ⟨arg ++ post, arg, h1, h2, hne⟩
  · by_cases hb : ∀ c ∈ input, c ∈ ws
    · rw [hblank hb]
      simp
    · have hc : ∃ c ∈ input, c ∉ ws := by
        push_neg at hb
        exact hb
      obtain ⟨pre, arg, post, rfl, hpre, hpost, hne, hhead, hlast⟩ := exists_trim input hc
      rw [(cd_argument w pre arg post hpre hpost hne hhead hlast hlen).2]
      repeat' split
      all_goals simp

theorem C19_cd_home_branch_unreachable_witness :
    ((∀ c ∈ " a ".toList, c ∈ ws) →
      CommandCd.Execute homeWorld " a ".toList = (Outcome.raise, homeWorld)) ∧
    ((∃ c ∈ " a ".toList, c ∉ ws) →
      ∃ input1 input2,
        substr " a ".toList (find_first_not_of " a ".toList ws 0) npos = some input1 ∧
        substr input1 0 (incr (find_last_not_of input1 ws)) = some input2 ∧
        input2 ≠ []) ∧
    (CommandCd.Execute homeWorld " a ".toList).1 ≠
      Outcome.ret "Error: Unable to change to home directory.".toList :=
  C19_cd_home_branch_unreachable homeWorld " a ".toList (by decide)

/-- C20: `LoadArgv` terminates on every argument string. The bounded loop
never exhausts `length args + 1` iterations and any larger bound gives the
same result; the vector grows by at most `length args + 1` words and the null
pointer; and an iteration that does not raise replaces `args` by a strictly
shorter view, which for a view within the size limit is a suffix of `args`
starting after the space just found. -/
theorem C20_LoadArgv_terminates (args : Str) (argv : List (Option Str)) :
    LoadArgv args argv ≠ ArgvResult.hang ∧
    (∀ fuel, args.length < fuel → LoadArgvLoop fuel args argv = LoadArgv args argv) ∧
    (∀ res, LoadArgv args argv = ArgvResult.ok res →
      res.length ≤ argv.length + (args.length + 1) + 1) ∧
    (∀ args1, find args ' ' ≠ npos →
      substr args (find_first_not_of args ws (find args ' ')) npos = some args1 →
      args1.length < args.length ∧
      (args.length ≤ npos →
        find args ' ' < find_first_not_of args ws (find args ' ') ∧ args1 <:+ args)) := by
  obtain ⟨h1, h2⟩ := LoadArgvLoop_bound (args.length + 1) args argv (by omega)
  refine ⟨h1, ?_, ?_, ?_⟩
  · intro fuel hf
    exact LoadArgvLoop_fuel fuel (args.length + 1) args argv hf (by omega)
  · intro res hres
    have := h2 res hres
    omega
  · intro args1 hpos h
    exact LoadArgv_step args args1 hpos h

end SimpleCli
